import Mathlib

/-!
# Colour changer (`src/main.cpp`): embedding and verified properties

The program is a GLUT demo with two callbacks over process-wide globals:
`OnSpecialKeyPress` (arrow keys cycle through ten colour presets and draw a random
target for the indicator line) and `OnDisplay` (one easing step of the line towards
its target, then drawing).

Modelling conventions.
* `float` values are exact rationals (`ℚ`): every statement about progress, targets
  and colours below is a statement of exact arithmetic, not of IEEE rounding.
* `int` values are `Int`; the C++ operator `%` truncates towards zero, so it is
  `Int.tmod`.  The index stays inside `[0, 10)`, far from any overflow.
* `rand()` is a stream `rand : Nat → Int` together with the number of calls made so
  far (`State.randCalls`): the k-th call returns `rand k`.
* An array read outside `colors` is undefined behaviour in C++; the embedding returns
  `none` there.
* The key codes `GLUT_KEY_*` come from `<GL/glut.h>`, which is not part of the
  repository: they are a parameter (`SpecialKeys`).
-/

namespace ColorChanger

/-- One entry of the palette: `struct ColorPreset` (main.cpp:28-32). -/
structure ColorPreset where
  r : ℚ
  g : ℚ
  b : ℚ
  name : String
deriving DecidableEq, Repr

/-- The preset table `colors[]` (main.cpp:34-44). -/
def colors : List ColorPreset :=
  [ ⟨1, 0, 0, "Red"⟩,
    ⟨0, 1, 0, "Green"⟩,
    ⟨0, 0, 1, "Blue"⟩,
    ⟨1, 1, 0, "Yellow"⟩,
    ⟨1, 0, 1, "Magenta"⟩,
    ⟨0, 1, 1, "Cyan"⟩,
    ⟨1, 1/2, 0, "Orange"⟩,
    ⟨1/2, 0, 1/2, "Purple"⟩,
    ⟨1, 3/4, 4/5, "Pink"⟩,
    ⟨1/2, 1/2, 1/2, "Gray"⟩ ]

/-- The element count `numColors = sizeof(colors) / sizeof(colors[0])` (main.cpp:46). -/
def numColors : Int := colors.length

/-- The constant `moveSpeed = 0.05f` (main.cpp:25). -/
def moveSpeed : ℚ := 5 / 100

/-- The array read `colors[i]` for an `int` index: defined exactly inside the array. -/
def colorsAt (i : Int) : Option ColorPreset :=
  if 0 ≤ i then colors[i.toNat]? else none

/-- The mutable globals of the program (main.cpp:17-24), plus the number of `rand()`
calls made so far. -/
structure State where
  colorR : ℚ
  colorG : ℚ
  colorB : ℚ
  currentColorIndex : Int
  lineProgress : ℚ
  targetLineProgress : ℚ
  randCalls : Nat
deriving DecidableEq, Repr

/-- The initialisers of the globals (main.cpp:17-24); no `rand()` call has been made. -/
def initialState : State :=
  { colorR := 1, colorG := 0, colorB := 0, currentColorIndex := 0,
    lineProgress := 0, targetLineProgress := 0, randCalls := 0 }

/-- The four case labels of the `switch` in `OnSpecialKeyPress`.  Their values are
defined by the GLUT header; case labels of one `switch` are pairwise distinct. -/
structure SpecialKeys where
  GLUT_KEY_UP : Int
  GLUT_KEY_DOWN : Int
  GLUT_KEY_RIGHT : Int
  GLUT_KEY_LEFT : Int
  distinct : [GLUT_KEY_UP, GLUT_KEY_DOWN, GLUT_KEY_RIGHT, GLUT_KEY_LEFT].Nodup

/-- The key codes of the GLUT API (`GLUT_KEY_LEFT = 100`, `GLUT_KEY_UP = 101`,
`GLUT_KEY_RIGHT = 102`, `GLUT_KEY_DOWN = 103`). -/
def glutKeys : SpecialKeys :=
  { GLUT_KEY_UP := 101, GLUT_KEY_DOWN := 103, GLUT_KEY_RIGHT := 102, GLUT_KEY_LEFT := 100,
    distinct := by decide }

/-- The expression `(float)(rand() % 100) / 100.0f` for a drawn value `r`. -/
def randomTarget (r : Int) : ℚ := ((Int.tmod r 100 : Int) : ℚ) / 100

/-- The callback `OnSpecialKeyPress(key, x, y)` (main.cpp:173-219).  The four cases
are written out as in the source; `glutPostRedisplay` touches no program variable. -/
def OnSpecialKeyPress (K : SpecialKeys) (rand : Nat → Int) (key x y : Int) (s : State) :
    Option State :=
  if key = K.GLUT_KEY_UP then do
    let i := Int.tmod (s.currentColorIndex + 1) numColors
    let c ← colorsAt i
    pure { s with currentColorIndex := i, colorR := c.r, colorG := c.g, colorB := c.b,
                  targetLineProgress := randomTarget (rand s.randCalls),
                  randCalls := s.randCalls + 1 }
  else if key = K.GLUT_KEY_DOWN then do
    let i := Int.tmod (s.currentColorIndex - 1 + numColors) numColors
    let c ← colorsAt i
    pure { s with currentColorIndex := i, colorR := c.r, colorG := c.g, colorB := c.b,
                  targetLineProgress := randomTarget (rand s.randCalls),
                  randCalls := s.randCalls + 1 }
  else if key = K.GLUT_KEY_RIGHT then do
    let i := Int.tmod (s.currentColorIndex + 1) numColors
    let c ← colorsAt i
    pure { s with currentColorIndex := i, colorR := c.r, colorG := c.g, colorB := c.b,
                  targetLineProgress := randomTarget (rand s.randCalls),
                  randCalls := s.randCalls + 1 }
  else if key = K.GLUT_KEY_LEFT then do
    let i := Int.tmod (s.currentColorIndex - 1 + numColors) numColors
    let c ← colorsAt i
    pure { s with currentColorIndex := i, colorR := c.r, colorG := c.g, colorB := c.b,
                  targetLineProgress := randomTarget (rand s.randCalls),
                  randCalls := s.randCalls + 1 }
  else
    some s

/-- The easing step at the top of `OnDisplay` (main.cpp:89-97). -/
def easing (s : State) : State :=
  let diff := s.targetLineProgress - s.lineProgress
  if |diff| > 1 / 100 then
    { s with lineProgress := s.lineProgress + diff * moveSpeed }
  else
    { s with lineProgress := s.targetLineProgress }

/-- The local `lineX = -60.0f + (lineProgress * 120.0f)` of `OnDisplay` (main.cpp:100). -/
def lineX (lineProgress : ℚ) : ℚ := -60 + lineProgress * 120

/-- The state-dependent part of what one `OnDisplay` call draws: the position of the
indicator line, the fill colour of the rectangle and the preset name shown. -/
structure Frame where
  lineX : ℚ
  fillR : ℚ
  fillG : ℚ
  fillB : ℚ
  label : String
deriving DecidableEq, Repr

/-- The callback `OnDisplay()` (main.cpp:84-161): the easing step, then the drawing,
which reads `colors[currentColorIndex].name`. -/
def OnDisplay (s : State) : Option (State × Frame) := do
  let s1 := easing s
  let c ← colorsAt s1.currentColorIndex
  pure (s1, { lineX := lineX s1.lineProgress,
              fillR := s1.colorR, fillG := s1.colorG, fillB := s1.colorB,
              label := c.name })

/-- The callbacks GLUT can invoke after `InitGraphics` (main.cpp:66-68): a special key
(`glutSpecialFunc`) or a frame (`glutDisplayFunc` and `glutIdleFunc`). -/
inductive Event where
  | key (key x y : Int)
  | frame
deriving DecidableEq, Repr

/-- One callback invocation. -/
def step (K : SpecialKeys) (rand : Nat → Int) (e : Event) (s : State) : Option State :=
  match e with
  | Event.key k x y => OnSpecialKeyPress K rand k x y s
  | Event.frame => (OnDisplay s).map Prod.fst

/-- A finite sequence of callback invocations, in order (the GLUT main loop is
single-threaded). -/
def run (K : SpecialKeys) (rand : Nat → Int) : List Event → State → Option State
  | [], s => some s
  | e :: es, s => (step K rand e s).bind (run K rand es)

/-- The remaining distance `|targetLineProgress - lineProgress|`. -/
def remaining (s : State) : ℚ := |s.targetLineProgress - s.lineProgress|

/-- Every event of the list is a press of UP or RIGHT. -/
def AllNext (K : SpecialKeys) (es : List Event) : Prop :=
  ∀ e ∈ es, ∃ x y, e = Event.key K.GLUT_KEY_UP x y ∨ e = Event.key K.GLUT_KEY_RIGHT x y

/-- Every event of the list is a press of DOWN or LEFT. -/
def AllPrevious (K : SpecialKeys) (es : List Event) : Prop :=
  ∀ e ∈ es, ∃ x y, e = Event.key K.GLUT_KEY_DOWN x y ∨ e = Event.key K.GLUT_KEY_LEFT x y

/-- The colour selection is in bounds and the active colour is the selected preset. -/
def ColorSynced (s : State) : Prop :=
  0 ≤ s.currentColorIndex ∧ s.currentColorIndex < numColors ∧
    ∃ c, colorsAt s.currentColorIndex = some c ∧
      s.colorR = c.r ∧ s.colorG = c.g ∧ s.colorB = c.b

/-- The index is in bounds and both line scalars lie in the unit interval. -/
def ProgressInUnit (s : State) : Prop :=
  0 ≤ s.currentColorIndex ∧ s.currentColorIndex < numColors ∧
    0 ≤ s.lineProgress ∧ s.lineProgress ≤ 1 ∧
    0 ≤ s.targetLineProgress ∧ s.targetLineProgress ≤ 1

/-! ## Auxiliary facts -/

theorem numColors_eq : numColors = 10 := rfl

theorem colorsAt_isSome (i : Int) (h0 : 0 ≤ i) (h1 : i < numColors) :
    ∃ c, colorsAt i = some c := by
  rw [numColors_eq] at h1
  interval_cases i <;> exact ⟨_, rfl⟩

theorem keys_ne (K : SpecialKeys) :
    K.GLUT_KEY_UP ≠ K.GLUT_KEY_DOWN ∧ K.GLUT_KEY_UP ≠ K.GLUT_KEY_RIGHT ∧
      K.GLUT_KEY_UP ≠ K.GLUT_KEY_LEFT ∧ K.GLUT_KEY_DOWN ≠ K.GLUT_KEY_RIGHT ∧
      K.GLUT_KEY_DOWN ≠ K.GLUT_KEY_LEFT ∧ K.GLUT_KEY_RIGHT ≠ K.GLUT_KEY_LEFT := by
  have h := K.distinct
  simp only [List.nodup_cons, List.mem_cons, List.mem_singleton, not_or, List.not_mem_nil,
    not_false_eq_true, List.nodup_nil, and_true] at h
  tauto

theorem tmod_succ_index (i : Int) (h0 : 0 ≤ i) :
    Int.tmod (i + 1) numColors = (i + 1) % numColors := by
  rw [numColors_eq]
  exact Int.tmod_eq_emod (by omega) (by omega)

theorem tmod_pred_index (i : Int) (h0 : 0 ≤ i) :
    Int.tmod (i - 1 + numColors) numColors = (i - 1) % numColors := by
  rw [numColors_eq, Int.tmod_eq_emod (by omega) (by omega)]
  omega

/-- RIGHT runs the same statements as UP, LEFT the same as DOWN. -/
theorem right_eq_up (K : SpecialKeys) (rand : Nat → Int) (x y x' y' : Int) (s : State) :
    OnSpecialKeyPress K rand K.GLUT_KEY_RIGHT x y s =
      OnSpecialKeyPress K rand K.GLUT_KEY_UP x' y' s := by
  obtain ⟨-, h2, -, h4, -, -⟩ := keys_ne K
  simp only [OnSpecialKeyPress, if_neg h2.symm, if_neg h4.symm, if_true]

theorem left_eq_down (K : SpecialKeys) (rand : Nat → Int) (x y x' y' : Int) (s : State) :
    OnSpecialKeyPress K rand K.GLUT_KEY_LEFT x y s =
      OnSpecialKeyPress K rand K.GLUT_KEY_DOWN x' y' s := by
  obtain ⟨h1, -, h3, -, h5, h6⟩ := keys_ne K
  simp only [OnSpecialKeyPress, if_neg h3.symm, if_neg h5.symm, if_neg h6.symm, if_neg h1.symm,
    if_true]

/-- What UP does on a state whose index is inside the array. -/
theorem up_spec (K : SpecialKeys) (rand : Nat → Int) (x y : Int) (s : State)
    (h0 : 0 ≤ s.currentColorIndex) :
    ∃ c, colorsAt ((s.currentColorIndex + 1) % numColors) = some c ∧
      OnSpecialKeyPress K rand K.GLUT_KEY_UP x y s =
        some { s with currentColorIndex := (s.currentColorIndex + 1) % numColors,
                      colorR := c.r, colorG := c.g, colorB := c.b,
                      targetLineProgress := randomTarget (rand s.randCalls),
                      randCalls := s.randCalls + 1 } := by
  have hb : 0 ≤ (s.currentColorIndex + 1) % numColors ∧
      (s.currentColorIndex + 1) % numColors < numColors := by
    rw [numColors_eq]; omega
  obtain ⟨c, hc⟩ := colorsAt_isSome _ hb.1 hb.2
  refine ⟨c, hc, ?_⟩
  simp only [OnSpecialKeyPress, if_true, tmod_succ_index _ h0, hc]
  rfl

/-- What DOWN does on a state whose index is inside the array. -/
theorem down_spec (K : SpecialKeys) (rand : Nat → Int) (x y : Int) (s : State)
    (h0 : 0 ≤ s.currentColorIndex) :
    ∃ c, colorsAt ((s.currentColorIndex - 1) % numColors) = some c ∧
      OnSpecialKeyPress K rand K.GLUT_KEY_DOWN x y s =
        some { s with currentColorIndex := (s.currentColorIndex - 1) % numColors,
                      colorR := c.r, colorG := c.g, colorB := c.b,
                      targetLineProgress := randomTarget (rand s.randCalls),
                      randCalls := s.randCalls + 1 } := by
  have hb : 0 ≤ (s.currentColorIndex - 1) % numColors ∧
      (s.currentColorIndex - 1) % numColors < numColors := by
    rw [numColors_eq]; omega
  obtain ⟨c, hc⟩ := colorsAt_isSome _ hb.1 hb.2
  refine ⟨c, hc, ?_⟩
  simp only [OnSpecialKeyPress, if_neg (keys_ne K).1.symm, if_true, tmod_pred_index _ h0, hc]
  rfl

/-- Any other key code falls through the `switch`. -/
theorem other_key_spec (K : SpecialKeys) (rand : Nat → Int) (key x y : Int) (s : State)
    (hu : key ≠ K.GLUT_KEY_UP) (hd : key ≠ K.GLUT_KEY_DOWN) (hr : key ≠ K.GLUT_KEY_RIGHT)
    (hl : key ≠ K.GLUT_KEY_LEFT) :
    OnSpecialKeyPress K rand key x y s = some s := by
  simp only [OnSpecialKeyPress, if_neg hu, if_neg hd, if_neg hr, if_neg hl]

/-! ## Sequences of key events -/

theorem next_index (K : SpecialKeys) (rand : Nat → Int) (key x y : Int) (s : State)
    (hk : key = K.GLUT_KEY_UP ∨ key = K.GLUT_KEY_RIGHT)
    (h0 : 0 ≤ s.currentColorIndex) :
    ∃ s1, OnSpecialKeyPress K rand key x y s = some s1 ∧
      s1.currentColorIndex = (s.currentColorIndex + 1) % numColors := by
  obtain ⟨c, -, hs⟩ := up_spec K rand x y s h0
  rcases hk with rfl | rfl
  · exact ⟨_, hs, rfl⟩
  · exact ⟨_, (right_eq_up K rand x y x y s).trans hs, rfl⟩

theorem previous_index (K : SpecialKeys) (rand : Nat → Int) (key x y : Int) (s : State)
    (hk : key = K.GLUT_KEY_DOWN ∨ key = K.GLUT_KEY_LEFT)
    (h0 : 0 ≤ s.currentColorIndex) :
    ∃ s1, OnSpecialKeyPress K rand key x y s = some s1 ∧
      s1.currentColorIndex = (s.currentColorIndex - 1) % numColors := by
  obtain ⟨c, -, hs⟩ := down_spec K rand x y s h0
  rcases hk with rfl | rfl
  · exact ⟨_, hs, rfl⟩
  · exact ⟨_, (left_eq_down K rand x y x y s).trans hs, rfl⟩

theorem run_allNext (K : SpecialKeys) (rand : Nat → Int) (es : List Event) :
    ∀ s : State, AllNext K es → 0 ≤ s.currentColorIndex → s.currentColorIndex < numColors →
      ∃ s1, run K rand es s = some s1 ∧
        s1.currentColorIndex = (s.currentColorIndex + (es.length : Int)) % numColors := by
  induction es with
  | nil =>
    intro s _ h0 h1
    refine ⟨s, rfl, ?_⟩
    rw [numColors_eq] at h1 ⊢
    simp only [List.length_nil, Nat.cast_zero, add_zero]
    omega
  | cons e es ih =>
    intro s hall h0 h1
    obtain ⟨x, y, he⟩ := hall e (List.mem_cons_self e es)
    have hk : ∃ k, e = Event.key k x y ∧ (k = K.GLUT_KEY_UP ∨ k = K.GLUT_KEY_RIGHT) := by
      rcases he with h | h
      · exact ⟨_, h, Or.inl rfl⟩
      · exact ⟨_, h, Or.inr rfl⟩
    obtain ⟨k, rfl, hk⟩ := hk
    obtain ⟨s1, hs1, hi1⟩ := next_index K rand k x y s hk h0
    have hb : 0 ≤ s1.currentColorIndex ∧ s1.currentColorIndex < numColors := by
      rw [hi1, numColors_eq]; omega
    obtain ⟨s2, hs2, hi2⟩ := ih s1 (fun e1 h => hall e1 (List.mem_cons_of_mem _ h)) hb.1 hb.2
    refine ⟨s2, ?_, ?_⟩
    · simp only [run, step, hs1, Option.some_bind, hs2]
    · rw [hi2, hi1, numColors_eq]
      simp only [List.length_cons, Nat.cast_add, Nat.cast_one]
      omega

theorem run_allPrevious (K : SpecialKeys) (rand : Nat → Int) (es : List Event) :
    ∀ s : State, AllPrevious K es → 0 ≤ s.currentColorIndex →
      s.currentColorIndex < numColors →
      ∃ s1, run K rand es s = some s1 ∧
        s1.currentColorIndex = (s.currentColorIndex - (es.length : Int)) % numColors := by
  induction es with
  | nil =>
    intro s _ h0 h1
    refine ⟨s, rfl, ?_⟩
    rw [numColors_eq] at h1 ⊢
    simp only [List.length_nil, Nat.cast_zero, sub_zero]
    omega
  | cons e es ih =>
    intro s hall h0 h1
    obtain ⟨x, y, he⟩ := hall e (List.mem_cons_self e es)
    have hk : ∃ k, e = Event.key k x y ∧ (k = K.GLUT_KEY_DOWN ∨ k = K.GLUT_KEY_LEFT) := by
      rcases he with h | h
      · exact ⟨_, h, Or.inl rfl⟩
      · exact ⟨_, h, Or.inr rfl⟩
    obtain ⟨k, rfl, hk⟩ := hk
    obtain ⟨s1, hs1, hi1⟩ := previous_index K rand k x y s hk h0
    have hb : 0 ≤ s1.currentColorIndex ∧ s1.currentColorIndex < numColors := by
      rw [hi1, numColors_eq]; omega
    obtain ⟨s2, hs2, hi2⟩ := ih s1 (fun e1 h => hall e1 (List.mem_cons_of_mem _ h)) hb.1 hb.2
    refine ⟨s2, ?_, ?_⟩
    · simp only [run, step, hs1, Option.some_bind, hs2]
    · rw [hi2, hi1, numColors_eq]
      simp only [List.length_cons, Nat.cast_add, Nat.cast_one]
      omega

/-! ## Frames -/

theorem easing_fields (s : State) :
    (easing s).currentColorIndex = s.currentColorIndex ∧ (easing s).colorR = s.colorR ∧
      (easing s).colorG = s.colorG ∧ (easing s).colorB = s.colorB ∧
      (easing s).targetLineProgress = s.targetLineProgress ∧
      (easing s).randCalls = s.randCalls := by
  by_cases h : |s.targetLineProgress - s.lineProgress| > 1 / 100
  · simp only [easing, if_pos h, and_self]
  · simp only [easing, if_neg h, and_self]

theorem easing_far (s : State) (h : 1 / 100 < |s.targetLineProgress - s.lineProgress|) :
    (easing s).lineProgress =
      s.lineProgress + (s.targetLineProgress - s.lineProgress) * moveSpeed := by
  unfold easing
  simp only [gt_iff_lt, if_pos h]

theorem easing_near (s : State) (h : |s.targetLineProgress - s.lineProgress| ≤ 1 / 100) :
    (easing s).lineProgress = s.targetLineProgress := by
  unfold easing
  simp only [gt_iff_lt, if_neg (not_lt.mpr h)]

theorem easing_between (s : State) :
    min s.lineProgress s.targetLineProgress ≤ (easing s).lineProgress ∧
      (easing s).lineProgress ≤ max s.lineProgress s.targetLineProgress := by
  rcases lt_or_le (1 / 100) |s.targetLineProgress - s.lineProgress| with h | h
  · rw [easing_far s h, moveSpeed]
    rcases le_total s.lineProgress s.targetLineProgress with hle | hle
    · rw [min_eq_left hle, max_eq_right hle]
      constructor <;> linarith
    · rw [min_eq_right hle, max_eq_left hle]
      constructor <;> linarith
  · rw [easing_near s h]
    exact ⟨min_le_right _ _, le_max_right _ _⟩

theorem onDisplay_spec (s : State)
    (h0 : 0 ≤ s.currentColorIndex) (h1 : s.currentColorIndex < numColors) :
    ∃ c, colorsAt s.currentColorIndex = some c ∧
      OnDisplay s = some (easing s,
        { lineX := lineX (easing s).lineProgress, fillR := s.colorR, fillG := s.colorG,
          fillB := s.colorB, label := c.name }) := by
  obtain ⟨c, hc⟩ := colorsAt_isSome _ h0 h1
  obtain ⟨e1, e2, e3, e4, -, -⟩ := easing_fields s
  refine ⟨c, hc, ?_⟩
  simp only [OnDisplay, e1, e2, e3, e4, hc]
  rfl

theorem step_frame (K : SpecialKeys) (rand : Nat → Int) (s : State)
    (h0 : 0 ≤ s.currentColorIndex) (h1 : s.currentColorIndex < numColors) :
    step K rand Event.frame s = some (easing s) := by
  obtain ⟨c, -, h⟩ := onDisplay_spec s h0 h1
  simp only [step, h, Option.map_some']

/-! ## Invariants of the event loop -/

theorem run_invariant (K : SpecialKeys) (rand : Nat → Int) (P : State → Prop)
    (hstep : ∀ e s, P s → ∃ s1, step K rand e s = some s1 ∧ P s1) (es : List Event) :
    ∀ s, P s → ∃ s1, run K rand es s = some s1 ∧ P s1 := by
  induction es with
  | nil => exact fun s hs => ⟨s, rfl, hs⟩
  | cons e es ih =>
    intro s hs
    obtain ⟨s1, h1, hp1⟩ := hstep e s hs
    obtain ⟨s2, h2, hp2⟩ := ih s1 hp1
    exact ⟨s2, by simp only [run, h1, Option.some_bind, h2], hp2⟩

/-- The key handler, case by case, on a state whose index is inside the array: either
the state is untouched, or it is the next or previous update. -/
theorem key_cases (K : SpecialKeys) (rand : Nat → Int) (key x y : Int) (s : State)
    (h0 : 0 ≤ s.currentColorIndex) :
    OnSpecialKeyPress K rand key x y s = some s ∨
      ∃ i c, 0 ≤ i ∧ i < numColors ∧ colorsAt i = some c ∧
        OnSpecialKeyPress K rand key x y s =
          some { s with currentColorIndex := i, colorR := c.r, colorG := c.g, colorB := c.b,
                        targetLineProgress := randomTarget (rand s.randCalls),
                        randCalls := s.randCalls + 1 } := by
  have hn : 0 ≤ (s.currentColorIndex + 1) % numColors ∧
      (s.currentColorIndex + 1) % numColors < numColors := by
    rw [numColors_eq]; omega
  have hp : 0 ≤ (s.currentColorIndex - 1) % numColors ∧
      (s.currentColorIndex - 1) % numColors < numColors := by
    rw [numColors_eq]; omega
  by_cases hu : key = K.GLUT_KEY_UP
  · subst hu
    obtain ⟨c, hc, h⟩ := up_spec K rand x y s h0
    exact Or.inr ⟨_, c, hn.1, hn.2, hc, h⟩
  by_cases hd : key = K.GLUT_KEY_DOWN
  · subst hd
    obtain ⟨c, hc, h⟩ := down_spec K rand x y s h0
    exact Or.inr ⟨_, c, hp.1, hp.2, hc, h⟩
  by_cases hr : key = K.GLUT_KEY_RIGHT
  · subst hr
    obtain ⟨c, hc, h⟩ := up_spec K rand x y s h0
    exact Or.inr ⟨_, c, hn.1, hn.2, hc, (right_eq_up K rand x y x y s).trans h⟩
  by_cases hl : key = K.GLUT_KEY_LEFT
  · subst hl
    obtain ⟨c, hc, h⟩ := down_spec K rand x y s h0
    exact Or.inr ⟨_, c, hp.1, hp.2, hc, (left_eq_down K rand x y x y s).trans h⟩
  exact Or.inl (other_key_spec K rand key x y s hu hd hr hl)

theorem randomTarget_spec (r : Int) (hr : 0 ≤ r) :
    ∃ k : Int, 0 ≤ k ∧ k < 100 ∧ randomTarget r = (k : ℚ) / 100 ∧
      0 ≤ randomTarget r ∧ randomTarget r < 1 := by
  have hk0 : 0 ≤ Int.tmod r 100 := Int.tmod_nonneg 100 hr
  have hk1 : Int.tmod r 100 < 100 := Int.tmod_lt_of_pos r (by decide)
  refine ⟨Int.tmod r 100, hk0, hk1, rfl, ?_, ?_⟩
  · unfold randomTarget
    have : (0 : ℚ) ≤ ((Int.tmod r 100 : Int) : ℚ) := by exact_mod_cast hk0
    positivity
  · unfold randomTarget
    have : ((Int.tmod r 100 : Int) : ℚ) < 100 := by exact_mod_cast hk1
    rw [div_lt_one (by norm_num)]
    exact this

/-! ## Convergence of the easing step -/

theorem easing_contracts (s : State) (h : 1 / 100 < remaining s) :
    remaining (easing s) = 19 / 20 * remaining s ∧ remaining (easing s) < remaining s := by
  unfold remaining at h ⊢
  have e : (easing s).targetLineProgress - (easing s).lineProgress =
      19 / 20 * (s.targetLineProgress - s.lineProgress) := by
    rw [(easing_fields s).2.2.2.2.1, easing_far s h, moveSpeed]
    ring
  rw [e, abs_mul, abs_of_pos (by norm_num : (0 : ℚ) < 19 / 20)]
  exact ⟨rfl, by linarith⟩

theorem easing_fixed (s : State) (h : s.lineProgress = s.targetLineProgress) :
    easing s = s := by
  obtain ⟨r, g, b, i, p, t, c⟩ := s
  simp only at h
  subst h
  simp [easing]

theorem iterate_easing_fixed (s : State) (h : s.lineProgress = s.targetLineProgress) (n : Nat) :
    easing^[n] s = s :=
  Function.iterate_fixed (easing_fixed s h) n

theorem iterate_easing_closed (s : State) (hp : s.lineProgress = 0)
    (ht : s.targetLineProgress = 1) (n : Nat) (hn : n ≤ 90) :
    (easing^[n] s).lineProgress = 1 - (19 / 20) ^ n ∧
      (easing^[n] s).targetLineProgress = 1 := by
  induction n with
  | zero => simp [hp, ht]
  | succ n ih =>
    obtain ⟨ihp, iht⟩ := ih (by omega)
    rw [Function.iterate_succ_apply']
    have hq : (1 : ℚ) / 100 < (19 / 20) ^ n := by
      have h89 : (1 : ℚ) / 100 < (19 / 20) ^ 89 := by norm_num
      have hmono : ((19 : ℚ) / 20) ^ 89 ≤ (19 / 20) ^ n :=
        pow_le_pow_of_le_one (by norm_num) (by norm_num) (by omega)
      linarith
    have hfar : 1 / 100 <
        |(easing^[n] s).targetLineProgress - (easing^[n] s).lineProgress| := by
      rw [ihp, iht, sub_sub_cancel, abs_of_pos (by positivity)]
      exact hq
    refine ⟨?_, by rw [(easing_fields _).2.2.2.2.1, iht]⟩
    rw [easing_far _ hfar, ihp, iht, moveSpeed, pow_succ]
    ring

theorem remaining_iterate (s : State) (hp : s.lineProgress = 0)
    (ht : s.targetLineProgress = 1) (n : Nat) (hn : n ≤ 90) :
    remaining (easing^[n] s) = (19 / 20) ^ n := by
  obtain ⟨h1, h2⟩ := iterate_easing_closed s hp ht n hn
  rw [remaining, h1, h2, sub_sub_cancel, abs_of_pos (by positivity)]

/-- What a handled key does on a state whose index is inside the array. -/
theorem handled_key_spec (K : SpecialKeys) (rand : Nat → Int) (key x y : Int) (s : State)
    (hk : key = K.GLUT_KEY_UP ∨ key = K.GLUT_KEY_DOWN ∨ key = K.GLUT_KEY_RIGHT ∨
      key = K.GLUT_KEY_LEFT)
    (h0 : 0 ≤ s.currentColorIndex) :
    ∃ i c, 0 ≤ i ∧ i < numColors ∧ colorsAt i = some c ∧
      OnSpecialKeyPress K rand key x y s =
        some { s with currentColorIndex := i, colorR := c.r, colorG := c.g, colorB := c.b,
                      targetLineProgress := randomTarget (rand s.randCalls),
                      randCalls := s.randCalls + 1 } := by
  have hn : 0 ≤ (s.currentColorIndex + 1) % numColors ∧
      (s.currentColorIndex + 1) % numColors < numColors := by
    rw [numColors_eq]; omega
  have hp : 0 ≤ (s.currentColorIndex - 1) % numColors ∧
      (s.currentColorIndex - 1) % numColors < numColors := by
    rw [numColors_eq]; omega
  rcases hk with rfl | rfl | rfl | rfl
  · obtain ⟨c, hc, h⟩ := up_spec K rand x y s h0
    exact ⟨_, c, hn.1, hn.2, hc, h⟩
  · obtain ⟨c, hc, h⟩ := down_spec K rand x y s h0
    exact ⟨_, c, hp.1, hp.2, hc, h⟩
  · obtain ⟨c, hc, h⟩ := up_spec K rand x y s h0
    exact ⟨_, c, hn.1, hn.2, hc, (right_eq_up K rand x y x y s).trans h⟩
  · obtain ⟨c, hc, h⟩ := down_spec K rand x y s h0
    exact ⟨_, c, hp.1, hp.2, hc, (left_eq_down K rand x y x y s).trans h⟩

/-- The handler never writes `lineProgress`, on any state and for any key. -/
theorem key_keeps_lineProgress (K : SpecialKeys) (rand : Nat → Int) (key x y : Int)
    (s s1 : State) (h : OnSpecialKeyPress K rand key x y s = some s1) :
    s1.lineProgress = s.lineProgress := by
  unfold OnSpecialKeyPress at h
  split_ifs at h
  · cases hc : colorsAt (Int.tmod (s.currentColorIndex + 1) numColors) with
    | none => simp [hc] at h
    | some c => simp [hc] at h; rw [← h]
  · cases hc : colorsAt (Int.tmod (s.currentColorIndex - 1 + numColors) numColors) with
    | none => simp [hc] at h
    | some c => simp [hc] at h; rw [← h]
  · cases hc : colorsAt (Int.tmod (s.currentColorIndex + 1) numColors) with
    | none => simp [hc] at h
    | some c => simp [hc] at h; rw [← h]
  · cases hc : colorsAt (Int.tmod (s.currentColorIndex - 1 + numColors) numColors) with
    | none => simp [hc] at h
    | some c => simp [hc] at h; rw [← h]
  · simp at h; rw [h]

/-- One callback from a state with a synchronised, in-bounds colour selection. -/
theorem step_synced (K : SpecialKeys) (rand : Nat → Int) (e : Event) (s : State)
    (h : ColorSynced s) : ∃ s1, step K rand e s = some s1 ∧ ColorSynced s1 := by
  obtain ⟨h0, h1, c, hc, hr, hg, hb⟩ := h
  cases e with
  | frame =>
    obtain ⟨e1, e2, e3, e4, -, -⟩ := easing_fields s
    refine ⟨easing s, step_frame K rand s h0 h1, ?_⟩
    unfold ColorSynced
    rw [e1, e2, e3, e4]
    exact ⟨h0, h1, c, hc, hr, hg, hb⟩
  | key k x y =>
    rcases key_cases K rand k x y s h0 with hs | ⟨i, c1, hi0, hi1, hc1, hs⟩
    · exact ⟨s, hs, h0, h1, c, hc, hr, hg, hb⟩
    · exact ⟨_, hs, hi0, hi1, c1, hc1, rfl, rfl, rfl⟩

/-- One callback from a state whose progress and target lie in the unit interval. -/
theorem step_unit (K : SpecialKeys) (rand : Nat → Int) (hrand : ∀ n, 0 ≤ rand n) (e : Event)
    (s : State) (h : ProgressInUnit s) : ∃ s1, step K rand e s = some s1 ∧ ProgressInUnit s1 := by
  obtain ⟨h0, h1, hp0, hp1, ht0, ht1⟩ := h
  cases e with
  | frame =>
    obtain ⟨e1, -, -, -, e5, -⟩ := easing_fields s
    obtain ⟨hlo, hhi⟩ := easing_between s
    refine ⟨easing s, step_frame K rand s h0 h1, ?_⟩
    unfold ProgressInUnit
    rw [e1, e5]
    exact ⟨h0, h1, le_trans (le_min hp0 ht0) hlo, le_trans hhi (max_le hp1 ht1), ht0, ht1⟩
  | key k x y =>
    rcases key_cases K rand k x y s h0 with hs | ⟨i, c1, hi0, hi1, -, hs⟩
    · exact ⟨s, hs, h0, h1, hp0, hp1, ht0, ht1⟩
    · obtain ⟨-, -, -, -, hr0, hr1⟩ := randomTarget_spec (rand s.randCalls) (hrand _)
      exact ⟨_, hs, hi0, hi1, hp0, hp1, hr0, le_of_lt hr1⟩

theorem colorSynced_initial : ColorSynced initialState :=
  ⟨by decide, by decide, ⟨1, 0, 0, "Red"⟩, rfl, rfl, rfl, rfl⟩

theorem progressInUnit_initial : ProgressInUnit initialState := by
  refine ⟨by decide, by decide, ?_, ?_, ?_, ?_⟩ <;> simp [initialState]

/-! ## The claims -/

/-- C1: from any index `i` inside `[0, numColors)` with `numColors = 10`, a run of `n`
presses of UP or RIGHT (in any mix) ends with `currentColorIndex = (i + n) mod numColors`,
and a run of `n` presses of DOWN or LEFT ends with `currentColorIndex = (i - n) mod numColors`
(non-negative remainder), for every stream of `rand()` values. -/
theorem index_after_presses (K : SpecialKeys) (rand : Nat → Int) (s : State)
    (h0 : 0 ≤ s.currentColorIndex) (h1 : s.currentColorIndex < numColors)
    (es : List Event) :
    numColors = 10 ∧
    (AllNext K es → ∃ s1, run K rand es s = some s1 ∧
      s1.currentColorIndex = (s.currentColorIndex + (es.length : Int)) % numColors) ∧
    (AllPrevious K es → ∃ s1, run K rand es s = some s1 ∧
      s1.currentColorIndex = (s.currentColorIndex - (es.length : Int)) % numColors) :=
  ⟨numColors_eq, fun h => run_allNext K rand es s h h0 h1,
    fun h => run_allPrevious K rand es s h h0 h1⟩

/-- Three presses (UP, RIGHT, UP) from index 8 end at index `(8 + 3) mod 10 = 1`. -/
theorem index_after_presses_witness :
    ∃ s1, run glutKeys (fun n => 7 * n + 3)
        [Event.key 101 0 0, Event.key 102 4 2, Event.key 101 0 0]
        { initialState with currentColorIndex := 8 } = some s1 ∧
      s1.currentColorIndex = 1 :=
  (index_after_presses glutKeys (fun n => 7 * n + 3)
    { initialState with currentColorIndex := 8 } (by decide) (by decide)
    [Event.key 101 0 0, Event.key 102 4 2, Event.key 101 0 0]).2.1
    (fun e he => by
      simp only [List.mem_cons, List.mem_singleton, List.not_mem_nil, or_false] at he
      rcases he with rfl | rfl | rfl
      · exact ⟨0, 0, Or.inl rfl⟩
      · exact ⟨4, 2, Or.inr rfl⟩
      · exact ⟨0, 0, Or.inl rfl⟩)

/-- C2: after any finite sequence of key events and frame updates from the initial
state, the program is in a state whose active colour `(colorR, colorG, colorB)` is the
`(r, g, b)` triple of `colors[currentColorIndex]`. -/
theorem active_colour_is_selected_preset (K : SpecialKeys) (rand : Nat → Int)
    (es : List Event) :
    ∃ s c, run K rand es initialState = some s ∧ colorsAt s.currentColorIndex = some c ∧
      (s.colorR, s.colorG, s.colorB) = (c.r, c.g, c.b) := by
  obtain ⟨s, hs, -, -, c, hc, hr, hg, hb⟩ :=
    run_invariant K rand ColorSynced (fun e s h => step_synced K rand e s h) es
      initialState colorSynced_initial
  exact ⟨s, c, hs, hc, by rw [hr, hg, hb]⟩

/-- C4: from any index inside `[0, numColors)`, a next key (UP or RIGHT) followed by a
previous key (DOWN or LEFT), and a previous key followed by a next key, both end with the
original `currentColorIndex`, for every stream of `rand()` values. -/
theorem next_previous_inverse (K : SpecialKeys) (rand : Nat → Int) (s : State)
    (h0 : 0 ≤ s.currentColorIndex) (h1 : s.currentColorIndex < numColors)
    (kn kp x y x' y' : Int)
    (hn : kn = K.GLUT_KEY_UP ∨ kn = K.GLUT_KEY_RIGHT)
    (hp : kp = K.GLUT_KEY_DOWN ∨ kp = K.GLUT_KEY_LEFT) :
    (∃ s2, run K rand [Event.key kn x y, Event.key kp x' y'] s = some s2 ∧
      s2.currentColorIndex = s.currentColorIndex) ∧
    (∃ s2, run K rand [Event.key kp x' y', Event.key kn x y] s = some s2 ∧
      s2.currentColorIndex = s.currentColorIndex) := by
  rw [numColors_eq] at h1
  constructor
  · obtain ⟨s1, e1, i1⟩ := next_index K rand kn x y s hn h0
    have hb : 0 ≤ s1.currentColorIndex ∧ s1.currentColorIndex < numColors := by
      rw [i1, numColors_eq]; omega
    obtain ⟨s2, e2, i2⟩ := previous_index K rand kp x' y' s1 hp hb.1
    refine ⟨s2, by simp only [run, step, e1, e2, Option.some_bind], ?_⟩
    rw [i2, i1, numColors_eq]; omega
  · obtain ⟨s1, e1, i1⟩ := previous_index K rand kp x' y' s hp h0
    have hb : 0 ≤ s1.currentColorIndex ∧ s1.currentColorIndex < numColors := by
      rw [i1, numColors_eq]; omega
    obtain ⟨s2, e2, i2⟩ := next_index K rand kn x y s1 hn hb.1
    refine ⟨s2, by simp only [run, step, e1, e2, Option.some_bind], ?_⟩
    rw [i2, i1, numColors_eq]; omega

/-- RIGHT then DOWN, and DOWN then RIGHT, from index 9 both end at index 9. -/
theorem next_previous_inverse_witness :
    (∃ s2, run glutKeys (fun n => 31 * n + 8) [Event.key 102 0 0, Event.key 103 1 1]
        { initialState with currentColorIndex := 9 } = some s2 ∧ s2.currentColorIndex = 9) ∧
    (∃ s2, run glutKeys (fun n => 31 * n + 8) [Event.key 103 1 1, Event.key 102 0 0]
        { initialState with currentColorIndex := 9 } = some s2 ∧ s2.currentColorIndex = 9) :=
  next_previous_inverse glutKeys (fun n => 31 * n + 8)
    { initialState with currentColorIndex := 9 } (by decide) (by decide)
    102 103 0 0 1 1 (Or.inr rfl) (Or.inl rfl)

/-- C5: the index wraps at both ends: a previous key (DOWN or LEFT) at index 0 gives
`numColors - 1 = 9`, and a next key (UP or RIGHT) at index `numColors - 1` gives 0. -/
theorem index_wraps (K : SpecialKeys) (rand : Nat → Int) (key x y : Int) (s : State) :
    (s.currentColorIndex = 0 → key = K.GLUT_KEY_DOWN ∨ key = K.GLUT_KEY_LEFT →
      ∃ s1, OnSpecialKeyPress K rand key x y s = some s1 ∧
        s1.currentColorIndex = numColors - 1 ∧ s1.currentColorIndex = 9) ∧
    (s.currentColorIndex = numColors - 1 → key = K.GLUT_KEY_UP ∨ key = K.GLUT_KEY_RIGHT →
      ∃ s1, OnSpecialKeyPress K rand key x y s = some s1 ∧ s1.currentColorIndex = 0) := by
  constructor
  · intro hi hk
    obtain ⟨s1, e1, i1⟩ := previous_index K rand key x y s hk (by rw [hi])
    refine ⟨s1, e1, ?_, ?_⟩ <;> rw [i1, hi] <;> decide
  · intro hi hk
    obtain ⟨s1, e1, i1⟩ := next_index K rand key x y s hk (by rw [hi]; decide)
    refine ⟨s1, e1, ?_⟩
    rw [i1, hi]; decide

/-- LEFT at index 0 gives index 9, and RIGHT at index 9 gives index 0. -/
theorem index_wraps_witness :
    (∃ s1, OnSpecialKeyPress glutKeys (fun _ => 42) 100 0 0 initialState = some s1 ∧
      s1.currentColorIndex = numColors - 1 ∧ s1.currentColorIndex = 9) ∧
    (∃ s1, OnSpecialKeyPress glutKeys (fun _ => 42) 102 0 0
        { initialState with currentColorIndex := 9 } = some s1 ∧ s1.currentColorIndex = 0) :=
  ⟨(index_wraps glutKeys (fun _ => 42) 100 0 0 initialState).1 rfl (Or.inr rfl),
    (index_wraps glutKeys (fun _ => 42) 102 0 0
      { initialState with currentColorIndex := 9 }).2 rfl (Or.inr rfl)⟩

/-- C3: with `lineProgress = 0` and `targetLineProgress = 1` (exact arithmetic,
`moveSpeed = 0.05`), every easing step taken while the remaining distance exceeds 0.01
strictly decreases it; there is a number `N` of steps before which the distance exceeds
0.01 and after which it is at most 0.01; step `N + 1` makes `lineProgress` equal to
`targetLineProgress`, which is still 1; and from then on the easing step changes nothing. -/
theorem easing_converges (s : State) (hp : s.lineProgress = 0)
    (ht : s.targetLineProgress = 1) :
    (∀ n, 1 / 100 < remaining (easing^[n] s) →
      remaining (easing^[n + 1] s) < remaining (easing^[n] s)) ∧
    ∃ N, (∀ n, n < N → 1 / 100 < remaining (easing^[n] s)) ∧
      remaining (easing^[N] s) ≤ 1 / 100 ∧
      (easing^[N + 1] s).lineProgress = (easing^[N + 1] s).targetLineProgress ∧
      (easing^[N + 1] s).targetLineProgress = 1 ∧
      ∀ m, N + 1 ≤ m → easing^[m] s = easing^[N + 1] s ∧
        easing (easing^[m] s) = easing^[m] s := by
  have h90 := iterate_easing_closed s hp ht 90 (le_refl 90)
  have hnear : remaining (easing^[90] s) ≤ 1 / 100 := by
    rw [remaining_iterate s hp ht 90 (le_refl 90)]
    norm_num
  have hsnap : (easing^[90 + 1] s).lineProgress = (easing^[90 + 1] s).targetLineProgress := by
    rw [Function.iterate_succ_apply', (easing_fields _).2.2.2.2.1]
    exact easing_near _ hnear
  refine ⟨fun n hn => ?_, 90, fun n hn => ?_, hnear, hsnap, ?_, fun m hm => ?_⟩
  · rw [Function.iterate_succ_apply']
    exact (easing_contracts _ hn).2
  · rw [remaining_iterate s hp ht n (le_of_lt hn)]
    have h89 : (1 : ℚ) / 100 < (19 / 20) ^ 89 := by norm_num
    have hmono : ((19 : ℚ) / 20) ^ 89 ≤ (19 / 20) ^ n :=
      pow_le_pow_of_le_one (by norm_num) (by norm_num) (by omega)
    linarith
  · rw [Function.iterate_succ_apply', (easing_fields _).2.2.2.2.1]
    exact h90.2
  · obtain ⟨k, rfl⟩ := Nat.exists_eq_add_of_le hm
    have hfix : easing^[90 + 1 + k] s = easing^[90 + 1] s := by
      rw [Nat.add_comm (90 + 1) k, Function.iterate_add_apply]
      exact iterate_easing_fixed _ hsnap k
    rw [hfix]
    exact ⟨rfl, easing_fixed _ hsnap⟩

/-- The convergence statement at the initial state with the target set to 1. -/
theorem easing_converges_witness :
    ∃ N, (∀ n, n < N → 1 / 100 <
        remaining (easing^[n] { initialState with targetLineProgress := 1 })) ∧
      remaining (easing^[N] { initialState with targetLineProgress := 1 }) ≤ 1 / 100 ∧
      (easing^[N + 1] { initialState with targetLineProgress := 1 }).lineProgress =
        (easing^[N + 1] { initialState with targetLineProgress := 1 }).targetLineProgress ∧
      (easing^[N + 1] { initialState with targetLineProgress := 1 }).targetLineProgress = 1 ∧
      ∀ m, N + 1 ≤ m →
        easing^[m] { initialState with targetLineProgress := 1 } =
          easing^[N + 1] { initialState with targetLineProgress := 1 } ∧
        easing (easing^[m] { initialState with targetLineProgress := 1 }) =
          easing^[m] { initialState with targetLineProgress := 1 } :=
  (easing_converges { initialState with targetLineProgress := 1 } rfl rfl).2

/-- C6: `0 <= currentColorIndex < numColors` holds initially and is preserved by every
callback (any key code, any `rand()` stream, and frames), every callback being defined on
such a state; so after any sequence of callbacks the read `colors[currentColorIndex]` is
inside the ten-element array, every further callback is defined, and the operand
`currentColorIndex - 1 + numColors` of the truncating `%` is not negative. -/
theorem index_stays_in_bounds (K : SpecialKeys) (rand : Nat → Int) :
    (0 ≤ initialState.currentColorIndex ∧ initialState.currentColorIndex < numColors) ∧
    colors.length = 10 ∧
    (∀ e s, 0 ≤ s.currentColorIndex → s.currentColorIndex < numColors →
      ∃ s1, step K rand e s = some s1 ∧
        0 ≤ s1.currentColorIndex ∧ s1.currentColorIndex < numColors) ∧
    (∀ es, ∃ s, run K rand es initialState = some s ∧
      0 ≤ s.currentColorIndex ∧ s.currentColorIndex < numColors ∧
      (∃ c, colorsAt s.currentColorIndex = some c) ∧
      (∀ e, ∃ s1, step K rand e s = some s1) ∧
      (∃ f, OnDisplay s = some (easing s, f)) ∧
      0 ≤ s.currentColorIndex - 1 + numColors) := by
  have hstep : ∀ e s, 0 ≤ s.currentColorIndex ∧ s.currentColorIndex < numColors →
      ∃ s1, step K rand e s = some s1 ∧
        0 ≤ s1.currentColorIndex ∧ s1.currentColorIndex < numColors := by
    intro e s ⟨h0, h1⟩
    cases e with
    | frame =>
      refine ⟨easing s, step_frame K rand s h0 h1, ?_⟩
      rw [(easing_fields s).1]
      exact ⟨h0, h1⟩
    | key k x y =>
      rcases key_cases K rand k x y s h0 with hs | ⟨i, c1, hi0, hi1, -, hs⟩
      · exact ⟨s, hs, h0, h1⟩
      · exact ⟨_, hs, hi0, hi1⟩
  refine ⟨⟨by decide, by decide⟩, rfl, fun e s h0 h1 => hstep e s ⟨h0, h1⟩, fun es => ?_⟩
  obtain ⟨s, hs, h0, h1⟩ :=
    run_invariant K rand
      (fun s => 0 ≤ s.currentColorIndex ∧ s.currentColorIndex < numColors)
      hstep es initialState ⟨by decide, by decide⟩
  obtain ⟨c, hc, hd⟩ := onDisplay_spec s h0 h1
  refine ⟨s, hs, h0, h1, ⟨c, hc⟩, fun e => ?_, ⟨_, hd⟩, ?_⟩
  · obtain ⟨s1, h, -⟩ := hstep e s ⟨h0, h1⟩
    exact ⟨s1, h⟩
  · rw [numColors_eq]; omega

/-- A DOWN press at index 0 is defined and lands inside the array. -/
theorem index_stays_in_bounds_witness :
    ∃ s1, step glutKeys (fun n => 5 * n) (Event.key 103 0 0) initialState = some s1 ∧
      0 ≤ s1.currentColorIndex ∧ s1.currentColorIndex < numColors :=
  (index_stays_in_bounds glutKeys (fun n => 5 * n)).2.2.1 (Event.key 103 0 0) initialState
    (by decide) (by decide)

/-- C7: a next or previous key event on a state whose index is not negative (in
particular on every state with the index inside the array), the `rand()` value drawn
being non-negative, is defined and leaves `targetLineProgress` equal to `k / 100` for an
integer `k` with `0 <= k < 100`, namely `k = rand() % 100`; the value lies in `[0, 1)`. -/
theorem target_is_a_hundredth (K : SpecialKeys) (rand : Nat → Int) (key x y : Int)
    (s : State)
    (hk : key = K.GLUT_KEY_UP ∨ key = K.GLUT_KEY_DOWN ∨ key = K.GLUT_KEY_RIGHT ∨
      key = K.GLUT_KEY_LEFT)
    (h0 : 0 ≤ s.currentColorIndex) (hr : 0 ≤ rand s.randCalls) :
    ∃ s1, OnSpecialKeyPress K rand key x y s = some s1 ∧
      ∃ k : Int, 0 ≤ k ∧ k < 100 ∧ k = rand s.randCalls % 100 ∧
        s1.targetLineProgress = (k : ℚ) / 100 ∧
        0 ≤ s1.targetLineProgress ∧ s1.targetLineProgress < 1 := by
  obtain ⟨i, c, -, -, -, hs⟩ := handled_key_spec K rand key x y s hk h0
  obtain ⟨-, -, -, -, hr0, hr1⟩ := randomTarget_spec (rand s.randCalls) hr
  refine ⟨_, hs, Int.tmod (rand s.randCalls) 100, Int.tmod_nonneg 100 hr,
    Int.tmod_lt_of_pos _ (by decide), Int.tmod_eq_emod hr (by decide), rfl, hr0, hr1⟩

/-- An UP press with `rand() = 1234` sets the target to `34 / 100`. -/
theorem target_is_a_hundredth_witness :
    ∃ s1, OnSpecialKeyPress glutKeys (fun _ => 1234) 101 0 0 initialState = some s1 ∧
      ∃ k : Int, 0 ≤ k ∧ k < 100 ∧ k = 34 ∧
        s1.targetLineProgress = (k : ℚ) / 100 ∧
        0 ≤ s1.targetLineProgress ∧ s1.targetLineProgress < 1 :=
  target_is_a_hundredth glutKeys (fun _ => 1234) 101 0 0 initialState (Or.inl rfl)
    (by decide) (by decide)

/-- C8: when `rand()` returns non-negative values (its C contract), after any finite
interleaving of key events and frame updates from the initial state the program is in a
state with `0 <= lineProgress <= 1`; and on every state the easing step leaves
`lineProgress` between its previous value and `targetLineProgress`, so it never passes
the target (exact arithmetic). -/
theorem lineProgress_in_unit_interval (K : SpecialKeys) (rand : Nat → Int)
    (hrand : ∀ n, 0 ≤ rand n) :
    (initialState.lineProgress = 0 ∧ initialState.targetLineProgress = 0) ∧
    (∀ es, ∃ s, run K rand es initialState = some s ∧
      0 ≤ s.lineProgress ∧ s.lineProgress ≤ 1) ∧
    (∀ s : State,
      min s.lineProgress s.targetLineProgress ≤ (easing s).lineProgress ∧
      (easing s).lineProgress ≤ max s.lineProgress s.targetLineProgress ∧
      (s.lineProgress ≤ s.targetLineProgress →
        s.lineProgress ≤ (easing s).lineProgress ∧
          (easing s).lineProgress ≤ s.targetLineProgress) ∧
      (s.targetLineProgress ≤ s.lineProgress →
        s.targetLineProgress ≤ (easing s).lineProgress ∧
          (easing s).lineProgress ≤ s.lineProgress)) := by
  refine ⟨⟨rfl, rfl⟩, fun es => ?_, fun s => ?_⟩
  · obtain ⟨s, hs, -, -, hp0, hp1, -, -⟩ :=
      run_invariant K rand ProgressInUnit (fun e s h => step_unit K rand hrand e s h) es
        initialState progressInUnit_initial
    exact ⟨s, hs, hp0, hp1⟩
  · obtain ⟨hlo, hhi⟩ := easing_between s
    refine ⟨hlo, hhi, fun hle => ?_, fun hle => ?_⟩
    · rw [min_eq_left hle] at hlo
      rw [max_eq_right hle] at hhi
      exact ⟨hlo, hhi⟩
    · rw [min_eq_right hle] at hlo
      rw [max_eq_left hle] at hhi
      exact ⟨hlo, hhi⟩

/-- A run with two key presses and three frames keeps `lineProgress` in `[0, 1]`. -/
theorem lineProgress_in_unit_interval_witness :
    ∃ s, run glutKeys (fun n => 61 * n + 99)
        [Event.key 101 0 0, Event.frame, Event.frame, Event.key 100 0 0, Event.frame]
        initialState = some s ∧
      0 ≤ s.lineProgress ∧ s.lineProgress ≤ 1 :=
  (lineProgress_in_unit_interval glutKeys (fun n => 61 * n + 99)
    (fun n => by positivity)).2.1
    [Event.key 101 0 0, Event.frame, Event.frame, Event.key 100 0 0, Event.frame]

/-- C10: a key code other than UP, DOWN, LEFT and RIGHT leaves the whole state as it is,
the count of `rand()` calls included, whatever the `rand()` stream; RIGHT gives the same
result as UP and LEFT the same as DOWN on every state; and no key changes
`lineProgress`. -/
theorem unhandled_keys_and_aliases (K : SpecialKeys) (rand : Nat → Int) :
    (∀ key x y s, key ≠ K.GLUT_KEY_UP → key ≠ K.GLUT_KEY_DOWN → key ≠ K.GLUT_KEY_LEFT →
      key ≠ K.GLUT_KEY_RIGHT → OnSpecialKeyPress K rand key x y s = some s) ∧
    (∀ x y s, OnSpecialKeyPress K rand K.GLUT_KEY_RIGHT x y s =
      OnSpecialKeyPress K rand K.GLUT_KEY_UP x y s) ∧
    (∀ x y s, OnSpecialKeyPress K rand K.GLUT_KEY_LEFT x y s =
      OnSpecialKeyPress K rand K.GLUT_KEY_DOWN x y s) ∧
    (∀ key x y s s1, OnSpecialKeyPress K rand key x y s = some s1 →
      s1.lineProgress = s.lineProgress) ∧
    (∀ key x y s, 0 ≤ s.currentColorIndex → s.currentColorIndex < numColors →
      ∃ s1, OnSpecialKeyPress K rand key x y s = some s1 ∧
        s1.lineProgress = s.lineProgress) := by
  refine ⟨fun key x y s hu hd hl hr => other_key_spec K rand key x y s hu hd hr hl,
    fun x y s => right_eq_up K rand x y x y s, fun x y s => left_eq_down K rand x y x y s,
    fun key x y s s1 h => key_keeps_lineProgress K rand key x y s s1 h,
    fun key x y s h0 h1 => ?_⟩
  rcases key_cases K rand key x y s h0 with hs | ⟨i, c, -, -, -, hs⟩
  · exact ⟨s, hs, rfl⟩
  · exact ⟨_, hs, rfl⟩

/-- The key code 27 has no case label: the state is returned as it is. -/
theorem unhandled_keys_and_aliases_witness :
    OnSpecialKeyPress glutKeys (fun n => 9 * n + 1) 27 0 0
        { initialState with currentColorIndex := 4, lineProgress := 1 / 3 } =
      some { initialState with currentColorIndex := 4, lineProgress := 1 / 3 } :=
  (unhandled_keys_and_aliases glutKeys (fun n => 9 * n + 1)).1 27 0 0
    { initialState with currentColorIndex := 4, lineProgress := 1 / 3 }
    (by decide) (by decide) (by decide) (by decide)

end ColorChanger
